import Mathlib

/-!
Shallow embedding of the file-name transformation core of the `ffr`
command-line tool (a Go program), together with proofs checking the
natural-language specification against it.

Go strings are modelled as `List Char` (all inputs of interest are ASCII).
Go's `int` parameters are modelled as `Int`; a Go run-time panic (slice out
of range, explicit `panic`) is modelled by the `RunResult.panicked`
constructor, a returned non-nil `error` by `RunResult.error`.

The primary source file is `main.go`; where a second repository snapshot
(the later variant, with `\d{1,2}` in mergeParts and a last-match
insertBefore) differs, both variants are embedded and named explicitly.
-/

namespace Ffr

/-- Outcome of a Go function that can return a value, return an error,
or panic. -/
inductive RunResult (α : Type) where
  | ok (a : α)
  | error
  | panicked
  deriving Repr, DecidableEq

namespace RunResult

def bind {α β : Type} : RunResult α → (α → RunResult β) → RunResult β
  | ok a, f => f a
  | error, _ => error
  | panicked, _ => panicked

def map {α β : Type} (f : α → β) : RunResult α → RunResult β
  | ok a => ok (f a)
  | error => error
  | panicked => panicked

instance : Monad RunResult where
  pure := ok
  bind := bind
  map := map

def isOk {α : Type} : RunResult α → Bool
  | ok _ => true
  | _ => false

end RunResult

/-- ASCII decimal digit, the RE2 class `\d`. -/
def goIsDigit (c : Char) : Bool := '0' ≤ c && c ≤ '9'

/-- ASCII lower-case letter, the RE2 class `[a-z]`. -/
def goIsLower (c : Char) : Bool := 'a' ≤ c && c ≤ 'z'

/-- Index of the first (leftmost) occurrence of `pat` in `s`,
modelling Go `strings.Index`. -/
def firstOcc (s pat : List Char) : Option Nat :=
  if pat.isPrefixOf s then some 0
  else
    match s with
    | [] => none
    | _ :: t => (firstOcc t pat).map (· + 1)

/-- Go `strings.Replace(s, old, new, 1)`: replace the first occurrence of
`old` in `s` by `new` (when `old` is empty this inserts `new` in front,
as in Go). -/
def replaceFirst (s old new : List Char) : List Char :=
  match firstOcc s old with
  | none => s
  | some i => s.take i ++ new ++ s.drop (i + old.length)

/-- Go `strings.Join(parts, sep)`. -/
def joinGo (sep : List Char) : List (List Char) → List Char
  | [] => []
  | [x] => x
  | x :: xs => x ++ sep ++ joinGo sep xs

/-- Fuelled worker for `splitGo`. -/
def splitGoF (sep : List Char) : Nat → List Char → List (List Char)
  | 0, s => [s]
  | fuel + 1, s =>
    match firstOcc s sep with
    | none => [s]
    | some i => s.take i :: splitGoF sep fuel (s.drop (i + sep.length))

/-- Go `strings.Split(s, sep)`.  For empty `sep` Go explodes the string
into its characters; otherwise it cuts at each leftmost occurrence. -/
def splitGo (sep s : List Char) : List (List Char) :=
  if sep = [] then s.map (fun c => [c])
  else splitGoF sep (s.length + 1) s

/-- Fuelled worker for `countOcc`. -/
def countOccF (sep : List Char) : Nat → List Char → Nat
  | 0, _ => 0
  | fuel + 1, s =>
    match firstOcc s sep with
    | none => 0
    | some i => countOccF sep fuel (s.drop (i + sep.length)) + 1

/-- Number of non-overlapping occurrences of a non-empty `sep` in `s`,
modelling Go `strings.Count` (left-to-right scan). -/
def countOcc (sep s : List Char) : Nat := countOccF sep (s.length + 1) s

/-- The path separator test used by the splitter. -/
def isSlash (c : Char) : Bool := c = '/'

/-- Negation of `isSlash`, named so that proofs stay syntactically stable. -/
def notSlash (c : Char) : Bool := c ≠ '/'

/-- Not-a-dot test used when locating the extension. -/
def notDot (c : Char) : Bool := c ≠ '.'

/-- Go `path/filepath.Base` for a plain path string. -/
def goFilepathBase (s : List Char) : List Char :=
  if s = [] then ['.']
  else
    let s1 := s.reverse.dropWhile isSlash
    if s1 = [] then ['/']
    else (s1.takeWhile notSlash).reverse

/-- Go `path/filepath.Ext`: the suffix of the last path element starting at
its final dot, empty when the last element has no dot. -/
def goExt (s : List Char) : List Char :=
  let tail := s.reverse.takeWhile notSlash
  let pre := tail.takeWhile notDot
  if pre.length = tail.length then [] else '.' :: pre.reverse

/-- The common prologue of every rename operation:
`basePath := filepath.Base(filePath)`, `ext := filepath.Ext(filePath)`,
then the extension is cut off the base. -/
def goBaseExt (name : List Char) : List Char × List Char :=
  let b := goFilepathBase name
  let e := goExt name
  (if e ≠ [] then b.take (b.length - e.length) else b, e)

/-- Value of a list of decimal digit characters. -/
def digitsToNat (ds : List Char) : Nat :=
  ds.foldl (fun acc c => 10 * acc + (c.toNat - 48)) 0

/-- Fuelled worker for `natToChars`. -/
def natToCharsF : Nat → Nat → List Char
  | 0, _ => []
  | fuel + 1, n =>
    if n < 10 then [Nat.digitChar n]
    else natToCharsF fuel (n / 10) ++ [Nat.digitChar (n % 10)]

/-- Decimal rendering of a natural number, modelling `strconv.Itoa` on
non-negative values. -/
def natToChars (n : Nat) : List Char := natToCharsF (n + 1) n

/-- Decimal rendering of an integer, modelling `strconv.Itoa`. -/
def intToChars (i : Int) : List Char :=
  if i < 0 then '-' :: natToChars i.natAbs else natToChars i.natAbs

/-- Go `strconv.ParseInt(string(ds), 10, 32)` restricted to the digit-only
strings produced by the matchers: errors on an empty or non-digit string
and on 32-bit overflow. -/
def parseIntGo32 (ds : List Char) : RunResult Int :=
  if ds = [] ∨ ¬ ds.all goIsDigit then .error
  else if digitsToNat ds ≤ 2 ^ 31 - 1 then .ok (digitsToNat ds)
  else .error

/-! ### Matchers for the default regular expressions

Go's `regexp` package uses leftmost-first (Perl-style) matching.  For the
default patterns of this program the character classes `\d`, `[a-z]` and the
literal `-` are pairwise disjoint, so greedy matching never backtracks and
each pattern reduces to a deterministic scanner. -/

/-- A match of the addNumber / deleteRegexp default pattern
`-(\d+)[a-z]+` (for deleteRegexp the unparenthesised `-\d+[a-z]+`):
`pos` is the start index in the scanned string, the full match text is
`'-' :: ds ++ ls`. -/
structure ANMatch where
  pos : Nat
  ds : List Char
  ls : List Char
  deriving Repr, DecidableEq

/-- Full text (group 0) of an `ANMatch`. -/
def ANMatch.m0 (m : ANMatch) : List Char := '-' :: (m.ds ++ m.ls)

/-- Attempt to match `-(\d+)[a-z]+` at the head of `s`. -/
def anMatchAt (s : List Char) : Option (List Char × List Char) :=
  match s with
  | [] => none
  | c :: rest =>
    if c ≠ '-' then none
    else
      let ds := rest.takeWhile goIsDigit
      if ds = [] then none
      else
        let ls := (rest.dropWhile goIsDigit).takeWhile goIsLower
        if ls = [] then none else some (ds, ls)

/-- Fuelled worker for `findAllAN`. -/
def findAllANF : Nat → List Char → Nat → List ANMatch
  | 0, _, _ => []
  | fuel + 1, s, pos =>
    match anMatchAt s with
    | some (ds, ls) =>
      let len := 1 + ds.length + ls.length
      ⟨pos, ds, ls⟩ :: findAllANF fuel (s.drop len) (pos + len)
    | none =>
      match s with
      | [] => []
      | _ :: t => findAllANF fuel t (pos + 1)

/-- All non-overlapping leftmost matches of `-(\d+)[a-z]+` in `s`,
modelling `regexp.FindAllStringSubmatch(s, -1)`. -/
def findAllAN (s : List Char) : List ANMatch := findAllANF (s.length + 1) s 0

/-- A match of the insertBefore default pattern `\d+[a-z]+`
(the main-variant pattern, with no dash prefix). -/
structure NLMatch where
  pos : Nat
  ds : List Char
  ls : List Char
  deriving Repr, DecidableEq

/-- Full text of an `NLMatch`. -/
def NLMatch.m0 (m : NLMatch) : List Char := m.ds ++ m.ls

/-- Attempt to match `\d+[a-z]+` at the head of `s`. -/
def nlMatchAt (s : List Char) : Option (List Char × List Char) :=
  let ds := s.takeWhile goIsDigit
  if ds = [] then none
  else
    let ls := (s.dropWhile goIsDigit).takeWhile goIsLower
    if ls = [] then none else some (ds, ls)

/-- First (leftmost) match of `\d+[a-z]+` in `s`, modelling
`regexp.FindString` (which returns the leftmost match). -/
def findFirstNL : List Char → Option NLMatch
  | [] => none
  | c :: t =>
    match nlMatchAt (c :: t) with
    | some (ds, ls) => some ⟨0, ds, ls⟩
    | none => (findFirstNL t).map (fun m => ⟨m.pos + 1, m.ds, m.ls⟩)

/-- A match of the mergeParts composite pattern
`-(\d+)(([a-z]+)(-[a-z]+\d*)*)` (main variant) or
`-(\d{1,2})(([a-z]+)(-[a-z]+\d*)*)` (later variant):
group 1 is `ds`, group 2 is `g2`, the full text is `'-' :: ds ++ g2`. -/
structure MPMatch where
  pos : Nat
  ds : List Char
  g2 : List Char
  deriving Repr, DecidableEq

/-- Full text (group 0) of an `MPMatch`. -/
def MPMatch.m0 (m : MPMatch) : List Char := '-' :: (m.ds ++ m.g2)

/-- Fuelled worker for the trailing `(-[a-z]+\d*)*` part of the mergeParts
pattern: greedily consumes repetitions of a dash, one or more lower-case
letters and zero or more digits. -/
def mpTailF : Nat → List Char → List Char
  | 0, _ => []
  | fuel + 1, s =>
    match s with
    | '-' :: v =>
      let ls2 := v.takeWhile goIsLower
      if ls2 = [] then []
      else
        let rest := v.dropWhile goIsLower
        let ds2 := rest.takeWhile goIsDigit
        '-' :: (ls2 ++ ds2 ++ mpTailF fuel (rest.dropWhile goIsDigit))
    | _ => []

/-- Greedy match of `(-[a-z]+\d*)*` at the head of `s` (the matched text). -/
def mpTail (s : List Char) : List Char := mpTailF (s.length + 1) s

/-- Attempt to match the mergeParts composite pattern at the head of `s`;
`limit2` selects the later variant's `\d{1,2}` in place of `\d+`.
Returns group 1 and group 2. -/
def mpMatchAt (limit2 : Bool) (s : List Char) : Option (List Char × List Char) :=
  match s with
  | [] => none
  | c :: rest =>
    if c ≠ '-' then none
    else
      let ds := rest.takeWhile goIsDigit
      if ds = [] then none
      else if limit2 ∧ 2 < ds.length then none
      else
        let rest2 := rest.dropWhile goIsDigit
        let ls := rest2.takeWhile goIsLower
        if ls = [] then none
        else some (ds, ls ++ mpTail (rest2.dropWhile goIsLower))

/-- Fuelled worker for `findAllMP`. -/
def findAllMPF (limit2 : Bool) : Nat → List Char → Nat → List MPMatch
  | 0, _, _ => []
  | fuel + 1, s, pos =>
    match mpMatchAt limit2 s with
    | some (ds, g2) =>
      let len := 1 + ds.length + g2.length
      ⟨pos, ds, g2⟩ :: findAllMPF limit2 fuel (s.drop len) (pos + len)
    | none =>
      match s with
      | [] => []
      | _ :: t => findAllMPF limit2 fuel t (pos + 1)

/-- All non-overlapping leftmost matches of the mergeParts composite
pattern in `s`. -/
def findAllMP (limit2 : Bool) (s : List Char) : List MPMatch :=
  findAllMPF limit2 (s.length + 1) s 0

/-- Fuelled worker for `findAllNL`. -/
def findAllNLF : Nat → List Char → Nat → List NLMatch
  | 0, _, _ => []
  | fuel + 1, s, pos =>
    match nlMatchAt s with
    | some (ds, ls) =>
      let len := ds.length + ls.length
      ⟨pos, ds, ls⟩ :: findAllNLF fuel (s.drop len) (pos + len)
    | none =>
      match s with
      | [] => []
      | _ :: t => findAllNLF fuel t (pos + 1)

/-- All non-overlapping leftmost matches of `\d+[a-z]+` in `s`. -/
def findAllNL (s : List Char) : List NLMatch := findAllNLF (s.length + 1) s 0

/-! ### The rename operations (from `main.go`, with the later-variant
`mergeParts` digit bound and later-variant `insertBefore` also embedded) -/

/-- `concat` from `main.go` lines 82-98.  The explicit `panic` guard fires
when `len(parts) < skip`; a negative `skip` panics at the slice
`parts[:skip]`, folded into the same `panicked` outcome. -/
def concatGo (parts : List (List Char)) (skip : Int)
    (newPart ext sep : List Char) : RunResult (List Char) :=
  if skip < 0 ∨ (parts.length : Int) < skip then .panicked
  else
    let k := skip.toNat
    let start := joinGo sep (parts.take k)
    let start2 := if start ≠ [] then start ++ sep else start
    let tail := joinGo sep (parts.drop k)
    let tail2 := if tail ≠ [] then sep ++ tail else tail
    .ok (start2 ++ newPart ++ tail2 ++ ext)

/-- New-name computation of `prefix` (`main.go` lines 297-317). -/
def prefixCore (name newPart : List Char) (skip : Int) : RunResult (List Char) :=
  let p := goBaseExt name
  concatGo (splitGo ['-'] p.1) skip newPart p.2 ['-']

/-- New-name computation of `suffix` (`main.go` lines 331-355). -/
def suffixCore (name newPart : List Char) (skip : Int) : RunResult (List Char) :=
  let p := goBaseExt name
  let parts := splitGo ['-'] p.1
  if (parts.length : Int) < skip then .error
  else concatGo parts ((parts.length : Int) - skip) newPart p.2 ['-']

/-- New-name computation of `replace` (`main.go` lines 365-395).  When the
search text does not occur, the code calls `safeRename(filePath, filePath,
false)`, a logged no-op: the name is unchanged.  `parts[:skip+1]` panics
for `skip < -1`. -/
def replaceCore (name search repl : List Char) (skip : Int) : RunResult (List Char) :=
  let p := goBaseExt name
  let parts := splitGo search p.1
  if (parts.length : Int) - 1 < skip then .error
  else if parts.length ≤ 1 then .ok name
  else if skip + 1 < 0 then .panicked
  else .ok (joinGo search (parts.take (skip + 1).toNat) ++ repl ++
            joinGo search (parts.drop (skip + 1).toNat) ++ p.2)

/-- The right-to-left accumulation loop of `mergeParts` (`main.go` lines
441-457), taking the match list already reversed (the code iterates `i`
from `len(matches)-1` down to `0`).  Each step cuts `len(m[0])` characters
off the end of the current base, parses group 1 (aborting on error), adds
it to the sum and stores group 2 at position `i` of `extra`. -/
def mergeLoopRev : List MPMatch → List Char → RunResult (List Char × Nat × List (List Char))
  | [], base => .ok (base, 0, [])
  | m :: rest, base =>
    let b := base.take (base.length - m.m0.length)
    (parseIntGo32 m.ds).bind fun v =>
      (mergeLoopRev rest b).map fun r => (r.1, r.2.1 + v.toNat, r.2.2 ++ [m.g2])

/-- New-name computation of `mergeParts` (`main.go` lines 410-471) for the
default (empty) regular-expression fragment; `limit2 = true` selects the
later snapshot's `\d{1,2}` numeric bound, `limit2 = false` the main
variant's `\d+`.  The result is
`fmt.Sprintf("%s-%d%s%s", basePath, sum, strings.Join(extra, "-"), ext)`,
then one occurrence of `deleteText` is deleted when it is non-empty. -/
def mergePartsCore (limit2 : Bool) (name del : List Char) : RunResult (List Char) :=
  let p := goBaseExt name
  let ms := findAllMP limit2 p.1
  (mergeLoopRev ms.reverse p.1).map fun r =>
    let newPath := r.1 ++ '-' :: (natToChars r.2.1 ++ joinGo ['-'] r.2.2 ++ p.2)
    if del ≠ [] then replaceFirst newPath del [] else newPath

/-- The membership test of the delete set built by `deleteParts`
(`main.go` lines 548-555): 1-based index `p` maps to `p - 1`, or to
`len(parts) - p` when deleting from the back. -/
def goDeleteSet (n : Nat) (partsToDelete : List Int) (fromBack : Bool) (i : Nat) : Bool :=
  partsToDelete.any (fun q => (if fromBack then (n : Int) - q else q - 1) = (i : Int))

/-- The surviving segments computed by `deleteParts` (`main.go` lines
557-562): every segment whose 0-based index is in the delete set is
dropped, the rest keep their order. -/
def deletePartsSegs (parts : List (List Char)) (ps : List Int) (fb : Bool) : List (List Char) :=
  (parts.enum.filter (fun pr => ¬ goDeleteSet parts.length ps fb pr.1)).map (·.2)

/-- New-name computation of `deleteParts` (`main.go` lines 537-573). -/
def deletePartsCore (name : List Char) (ps : List Int) (fb : Bool) : RunResult (List Char) :=
  let p := goBaseExt name
  .ok (joinGo ['-'] (deletePartsSegs (splitGo ['-'] p.1) ps fb) ++ p.2)

/-- The replacement loop of `deleteRegexp` (`main.go` lines 508-514): stop
once `maxCount > 0` matches were handled, otherwise delete the first
occurrence of `m[g]`; the default pattern `-\d+[a-z]+` has no capture
group, so any `g ≠ 0` indexes out of range and panics. -/
def delLoop (g : Int) : List ANMatch → Nat → Int → List Char → RunResult (List Char)
  | [], _, _, base => .ok base
  | m :: rest, i, maxC, base =>
    if 0 < maxC ∧ maxC ≤ (i : Int) then .ok base
    else if g ≠ 0 then .panicked
    else delLoop g rest (i + 1) maxC (replaceFirst base m.m0 [])

/-- New-name computation of `deleteRegexp` (`main.go` lines 481-525) for
the default (empty) pattern.  Zero matches is an error; the slice
`matches[skipFinds:]` panics for a `skipFinds` outside `[0, len]`. -/
def deleteRegexpCore (name : List Char) (g skipFinds maxCount : Int) : RunResult (List Char) :=
  let p := goBaseExt name
  let ms := findAllAN p.1
  if ms = [] then .error
  else if skipFinds < 0 ∨ (ms.length : Int) < skipFinds then .panicked
  else (delLoop g (ms.drop skipFinds.toNat) 0 maxCount p.1).map (· ++ p.2)

/-- The increment loop of `addNumber` (`main.go` lines 621-636): for each
selected match, parse the captured number, render the old and the new
number, replace the first occurrence of the old rendering inside the full
match text, and substitute the rewritten match for the first occurrence of
the original match text in the base. -/
def addLoop (numberToAdd : Int) : List ANMatch → Nat → Int → List Char → RunResult (List Char)
  | [], _, _, base => .ok base
  | m :: rest, i, maxC, base =>
    if 0 < maxC ∧ maxC ≤ (i : Int) then .ok base
    else
      (parseIntGo32 m.ds).bind fun v =>
        let n1 := intToChars v
        let n2 := intToChars (v + numberToAdd)
        let rw := replaceFirst m.m0 n1 n2
        addLoop numberToAdd rest (i + 1) maxC (replaceFirst base m.m0 rw)

/-- New-name computation of `addNumber` (`main.go` lines 593-647) for the
default (empty) pattern `-(\d+)[a-z]+` with capture group 1. -/
def addNumberCore (name : List Char) (numberToAdd skipFinds maxCount : Int) :
    RunResult (List Char) :=
  let p := goBaseExt name
  let ms := findAllAN p.1
  if ms = [] then .error
  else if skipFinds < 0 ∨ (ms.length : Int) < skipFinds then .panicked
  else (addLoop numberToAdd (ms.drop skipFinds.toNat) 0 maxCount p.1).map (· ++ p.2)

/-- New-name computation of `insertBefore` in `main.go` (lines 664-696),
default pattern `\d+[a-z]+`: `regexp.FindString` yields the leftmost
match; if there is none, `"-" + insertText` is appended, otherwise
`insertText + "-"` is spliced in front of the first occurrence of the
matched text. -/
def insertBeforeCore (name t : List Char) : RunResult (List Char) :=
  let p := goBaseExt name
  match findFirstNL p.1 with
  | none => .ok (p.1 ++ '-' :: (t ++ p.2))
  | some m => .ok (replaceFirst p.1 m.m0 (t ++ '-' :: m.m0) ++ p.2)

/-- New-name computation of `insertBefore` in the later snapshot (its lines
1020-1063) with the default flags: the default pattern becomes
`-(\d+[a-z]+)`, all matches are found, and `insertText + "-"` is spliced
in front of the first occurrence of the LAST match's group-1 text. -/
def insertBeforeV2Core (name t : List Char) : RunResult (List Char) :=
  let p := goBaseExt name
  match (findAllAN p.1).getLast? with
  | none => .ok (p.1 ++ '-' :: (t ++ p.2))
  | some m => .ok (replaceFirst p.1 (m.ds ++ m.ls) (t ++ '-' :: (m.ds ++ m.ls)) ++ p.2)

/-- Modelled from the spec: `insertBefore` "takes the last match, inserts
`insertText + \"-\"` immediately before it", appending when there is no
match.  This is the reference the code is compared against. -/
def insertBeforeLastSpec (name t : List Char) : List Char :=
  let p := goBaseExt name
  match (findAllNL p.1).getLast? with
  | none => p.1 ++ '-' :: (t ++ p.2)
  | some m => p.1.take m.pos ++ t ++ '-' :: (p.1.drop m.pos ++ p.2)

/-- Modelled from the spec: during the mergeParts scan "only the matched
text is removed from the base name", i.e. the remaining base is obtained
by deleting each matched occurrence itself. -/
def mergeSpecTrim (limit2 : Bool) (name : List Char) : List Char :=
  let p := goBaseExt name
  (findAllMP limit2 p.1).foldl (fun acc m => replaceFirst acc m.m0 []) p.1

/-- Modelled from the spec: the full mergeParts result as the spec
describes the scan — remaining base (with exactly the matched text
removed), the sum, and the group-2 remainders joined by dashes. -/
def mergeSpecName (limit2 : Bool) (name : List Char) : RunResult (List Char) :=
  let p := goBaseExt name
  let ms := findAllMP limit2 p.1
  (ms.mapM (fun m => parseIntGo32 m.ds)).map fun vs =>
    mergeSpecTrim limit2 name ++
      '-' :: (natToChars (vs.map Int.toNat).sum ++ joinGo ['-'] (ms.map MPMatch.g2) ++ p.2)

/-! ### The executor: dry-run and rename effects -/

/-- Effects and result of one per-file operation run: the renames actually
asked of the file system and the new paths reported to the log. -/
structure Outcome where
  result : RunResult Unit
  renames : List (List Char × List Char)
  reported : List (List Char)
  deriving Repr, DecidableEq

/-- `safeRename` (`main.go` lines 55-80) against a file-system model `fs`
(the set of existing paths): equal paths are a logged no-op; an existing
destination without force-overwrite is logged and skipped with a nil
error; otherwise the rename is performed. -/
def safeRenameModel (fs : List (List Char)) (old new : List Char) (force : Bool) : Outcome :=
  if old = new then ⟨.ok (), [], [new]⟩
  else if new ∈ fs ∧ ¬ force then ⟨.ok (), [], [new]⟩
  else ⟨.ok (), [(old, new)], [new]⟩

/-- One rename operation together with its parameters (defaults as fixed in
the embedding above). -/
inductive Op where
  | prefixOp (newPart : List Char) (skip : Int)
  | suffixOp (newPart : List Char) (skip : Int)
  | replaceOp (search repl : List Char) (skip : Int)
  | mergePartsOp (limit2 : Bool) (del : List Char)
  | deletePartsOp (ps : List Int) (fb : Bool)
  | deleteRegexpOp (g skipF maxC : Int)
  | addNumberOp (add skipF maxC : Int)
  | insertBeforeOp (t : List Char)
  deriving Repr, DecidableEq

/-- The pure new-name computation of each operation. -/
def opName : Op → List Char → RunResult (List Char)
  | .prefixOp np skip, name => prefixCore name np skip
  | .suffixOp np skip, name => suffixCore name np skip
  | .replaceOp se re skip, name => replaceCore name se re skip
  | .mergePartsOp l2 del, name => mergePartsCore l2 name del
  | .deletePartsOp ps fb, name => deletePartsCore name ps fb
  | .deleteRegexpOp g sf mc, name => deleteRegexpCore name g sf mc
  | .addNumberOp a sf mc, name => addNumberCore name a sf mc
  | .insertBeforeOp t, name => insertBeforeCore name t

/-- Run one operation on one file: compute the new name; under dry-run
only report it (every operation returns before touching the file system
when `dryRun` is set), otherwise hand it to `safeRename`. -/
def runOp (fs : List (List Char)) (op : Op) (name : List Char) (dry force : Bool) : Outcome :=
  match opName op name with
  | .panicked => ⟨.panicked, [], []⟩
  | .error => ⟨.error, [], []⟩
  | .ok newName =>
    if dry then ⟨.ok (), [], [newName]⟩
    else safeRenameModel fs name newName force

/-! ### Lemmas: first occurrence, splitting, joining -/

theorem isPrefixOf_iff {l p : List Char} : p.isPrefixOf l = true ↔ p <+: l :=
  List.isPrefixOf_iff_prefix

theorem firstOcc_le_length {s pat : List Char} {i : Nat} (h : firstOcc s pat = some i) :
    i ≤ s.length := by
  induction s generalizing i with
  | nil =>
    unfold firstOcc at h
    by_cases hp : pat.isPrefixOf ([] : List Char) = true
    · simp [hp] at h
      omega
    · simp [hp] at h
  | cons c t ih =>
    unfold firstOcc at h
    by_cases hp : pat.isPrefixOf (c :: t) = true
    · simp [hp] at h
      omega
    · simp [hp] at h
      obtain ⟨j, hj, hij⟩ := h
      have := ih hj
      simp
      omega

theorem firstOcc_isPref {s pat : List Char} {i : Nat} (h : firstOcc s pat = some i) :
    pat <+: s.drop i := by
  induction s generalizing i with
  | nil =>
    unfold firstOcc at h
    by_cases hp : pat.isPrefixOf ([] : List Char) = true
    · simp [hp] at h
      subst h
      simpa [isPrefixOf_iff] using hp
    · simp [hp] at h
  | cons c t ih =>
    unfold firstOcc at h
    by_cases hp : pat.isPrefixOf (c :: t) = true
    · simp [hp] at h
      subst h
      simpa [isPrefixOf_iff] using hp
    · simp [hp] at h
      obtain ⟨j, hj, hij⟩ := h
      subst hij
      simpa using ih hj

theorem firstOcc_prefix_decomp {s pat : List Char} {i : Nat} (h : firstOcc s pat = some i) :
    s.drop i = pat ++ s.drop (i + pat.length) := by
  obtain ⟨rest, hrest⟩ := firstOcc_isPref h
  have h1 : (s.drop i).drop pat.length = rest := by
    rw [← hrest]
    exact List.drop_left _ _
  have h2 : s.drop (i + pat.length) = rest := by
    rw [← h1, List.drop_drop]
  rw [h2, hrest]

theorem firstOcc_spliceEq {s pat : List Char} {i : Nat} (h : firstOcc s pat = some i) :
    s = s.take i ++ pat ++ s.drop (i + pat.length) := by
  conv_lhs => rw [← List.take_append_drop i s]
  rw [firstOcc_prefix_decomp h, List.append_assoc]

theorem firstOcc_none_not_pref {s pat : List Char} (h : firstOcc s pat = none) :
    ∀ j, ¬ pat <+: s.drop j := by
  intro j
  induction s generalizing j with
  | nil =>
    unfold firstOcc at h
    by_cases hp : pat.isPrefixOf ([] : List Char) = true
    · simp [hp] at h
    · simp only [List.drop_nil]
      simpa [isPrefixOf_iff] using hp
  | cons c t ih =>
    unfold firstOcc at h
    by_cases hp : pat.isPrefixOf (c :: t) = true
    · simp [hp] at h
    · simp [hp] at h
      match j with
      | 0 => simpa [isPrefixOf_iff] using hp
      | j' + 1 =>
        simpa using ih h j'

theorem firstOcc_minimal {s pat : List Char} {i : Nat} (h : firstOcc s pat = some i) :
    ∀ j, j < i → ¬ pat <+: s.drop j := by
  intro j hj
  induction s generalizing i j with
  | nil =>
    unfold firstOcc at h
    by_cases hp : pat.isPrefixOf ([] : List Char) = true
    · simp [hp] at h
      omega
    · simp [hp] at h
  | cons c t ih =>
    unfold firstOcc at h
    by_cases hp : pat.isPrefixOf (c :: t) = true
    · simp [hp] at h
      omega
    · simp [hp] at h
      obtain ⟨i', hi', hii⟩ := h
      subst hii
      match j with
      | 0 => simpa [isPrefixOf_iff] using hp
      | j' + 1 =>
        have := ih hi' (j := j') (by omega)
        simpa using this

theorem firstOcc_eq_some_of {s pat : List Char} {i : Nat}
    (h1 : pat <+: s.drop i)
    (h2 : ∀ j, j < i → ¬ pat <+: s.drop j) :
    firstOcc s pat = some i := by
  induction s generalizing i with
  | nil =>
    unfold firstOcc
    match i with
    | 0 =>
      simp only [List.drop_nil] at h1
      simp [isPrefixOf_iff, h1]
    | i' + 1 =>
      have h0 := h2 0 (by omega)
      simp only [List.drop_nil] at h0 h1
      exact absurd h1 h0
  | cons c t ih =>
    unfold firstOcc
    match i with
    | 0 =>
      simp only [List.drop_zero] at h1
      simp [isPrefixOf_iff, h1]
    | i' + 1 =>
      have h0 := h2 0 (by omega)
      simp only [List.drop_zero] at h0
      have hb : ¬ pat.isPrefixOf (c :: t) = true := by
        simpa [isPrefixOf_iff] using h0
      simp only [Bool.not_eq_true] at hb
      simp only [hb]
      have hrec : firstOcc t pat = some i' := by
        apply ih
        · simpa using h1
        · intro j hj
          have := h2 (j + 1) (by omega)
          simpa using this
      simp [hrec]

theorem firstOcc_le_of_pref {s pat : List Char} {j : Nat}
    (h : pat <+: s.drop j) :
    ∃ i, i ≤ j ∧ firstOcc s pat = some i := by
  match ho : firstOcc s pat with
  | none => exact absurd h (firstOcc_none_not_pref ho j)
  | some i =>
    refine ⟨i, ?_, rfl⟩
    by_contra hc
    exact absurd h (firstOcc_minimal ho j (by omega))

theorem firstOcc_fits {s pat : List Char} {i : Nat} (h : firstOcc s pat = some i) :
    i + pat.length ≤ s.length := by
  have hle := firstOcc_le_length h
  have hp := (firstOcc_isPref h).length_le
  simp only [List.length_drop] at hp
  omega

theorem replaceFirst_of_firstOcc {s old new : List Char} {i : Nat}
    (h : firstOcc s old = some i) :
    replaceFirst s old new = s.take i ++ new ++ s.drop (i + old.length) := by
  unfold replaceFirst
  rw [h]

theorem splitGoF_fuel_eq {sep : List Char} (hsep : sep ≠ []) :
    ∀ f1 f2 s, s.length < f1 → s.length < f2 → splitGoF sep f1 s = splitGoF sep f2 s := by
  intro f1
  induction f1 with
  | zero => intro f2 s h1 h2; omega
  | succ f1 ih =>
    intro f2 s h1 h2
    match f2 with
    | 0 => omega
    | f2 + 1 =>
      unfold splitGoF
      match ho : firstOcc s sep with
      | none => rfl
      | some i =>
        simp only
        have hs : s ≠ [] := by
          intro he
          subst he
          unfold firstOcc at ho
          have : ¬ sep.isPrefixOf ([] : List Char) = true := by
            simp [isPrefixOf_iff, hsep]
          simp [this] at ho
        have hslen : 0 < s.length := List.length_pos.mpr hs
        have hseplen : 0 < sep.length := List.length_pos.mpr hsep
        have hd : (s.drop (i + sep.length)).length < s.length := by
          simp only [List.length_drop]
          omega
        rw [ih f2 (s.drop (i + sep.length)) (by omega) (by omega)]

theorem splitGo_eq {sep s : List Char} (hsep : sep ≠ []) :
    splitGo sep s =
      match firstOcc s sep with
      | none => [s]
      | some i => s.take i :: splitGo sep (s.drop (i + sep.length)) := by
  unfold splitGo
  simp only [hsep, if_neg, ite_false]
  conv_lhs => unfold splitGoF
  match ho : firstOcc s sep with
  | none => rfl
  | some i =>
    simp only
    congr 1
    apply splitGoF_fuel_eq hsep
    · have := firstOcc_fits ho
      have hseplen : 0 < sep.length := List.length_pos.mpr hsep
      simp only [List.length_drop]
      omega
    · simp

theorem splitGo_ne_nil {sep s : List Char} (hsep : sep ≠ []) : splitGo sep s ≠ [] := by
  rw [splitGo_eq hsep]
  match firstOcc s sep with
  | none => simp
  | some i => simp

theorem joinGo_cons_of_ne {sep x : List Char} {xs : List (List Char)} (h : xs ≠ []) :
    joinGo sep (x :: xs) = x ++ sep ++ joinGo sep xs := by
  match xs with
  | [] => exact absurd rfl h
  | y :: t => rfl

theorem joinGo_splitGo {sep : List Char} (hsep : sep ≠ []) (s : List Char) :
    joinGo sep (splitGo sep s) = s := by
  have H : ∀ n s, s.length ≤ n → joinGo sep (splitGo sep s) = s := by
    intro n
    induction n with
    | zero =>
      intro s hs
      have : s = [] := List.eq_nil_of_length_eq_zero (by omega)
      subst this
      rw [splitGo_eq hsep]
      have : firstOcc ([] : List Char) sep = none := by
        unfold firstOcc
        have : ¬ sep.isPrefixOf ([] : List Char) = true := by
          simp [isPrefixOf_iff, hsep]
        simp [this]
      rw [this]
      rfl
    | succ n ih =>
      intro s hs
      rw [splitGo_eq hsep]
      match ho : firstOcc s sep with
      | none => rfl
      | some i =>
        simp only
        have hfits := firstOcc_fits ho
        have hseplen : 0 < sep.length := List.length_pos.mpr hsep
        rw [joinGo_cons_of_ne (splitGo_ne_nil hsep)]
        rw [ih (s.drop (i + sep.length)) (by simp only [List.length_drop]; omega)]
        exact (firstOcc_spliceEq ho).symm
  exact H s.length s (le_refl _)

theorem countOccF_fuel_eq {sep : List Char} (hsep : sep ≠ []) :
    ∀ f1 f2 s, s.length < f1 → s.length < f2 → countOccF sep f1 s = countOccF sep f2 s := by
  intro f1
  induction f1 with
  | zero => intro f2 s h1 h2; omega
  | succ f1 ih =>
    intro f2 s h1 h2
    match f2 with
    | 0 => omega
    | f2 + 1 =>
      unfold countOccF
      match ho : firstOcc s sep with
      | none => rfl
      | some i =>
        simp only
        have hfits := firstOcc_fits ho
        have hs : 0 < s.length := by
          have hseplen : 0 < sep.length := List.length_pos.mpr hsep
          omega
        have hseplen : 0 < sep.length := List.length_pos.mpr hsep
        rw [ih f2 (s.drop (i + sep.length)) (by simp only [List.length_drop]; omega)
          (by simp only [List.length_drop]; omega)]

theorem countOcc_eq {sep s : List Char} (hsep : sep ≠ []) :
    countOcc sep s =
      match firstOcc s sep with
      | none => 0
      | some i => countOcc sep (s.drop (i + sep.length)) + 1 := by
  unfold countOcc
  conv_lhs => unfold countOccF
  match ho : firstOcc s sep with
  | none => rfl
  | some i =>
    simp only
    congr 1
    apply countOccF_fuel_eq hsep
    · have := firstOcc_fits ho
      have hseplen : 0 < sep.length := List.length_pos.mpr hsep
      simp only [List.length_drop]
      omega
    · simp

theorem splitGo_length {sep : List Char} (hsep : sep ≠ []) (s : List Char) :
    (splitGo sep s).length = countOcc sep s + 1 := by
  have H : ∀ n s, s.length ≤ n → (splitGo sep s).length = countOcc sep s + 1 := by
    intro n
    induction n with
    | zero =>
      intro s hs
      have : s = [] := List.eq_nil_of_length_eq_zero (by omega)
      subst this
      rw [splitGo_eq hsep, countOcc_eq hsep]
      have : firstOcc ([] : List Char) sep = none := by
        unfold firstOcc
        have : ¬ sep.isPrefixOf ([] : List Char) = true := by
          simp [isPrefixOf_iff, hsep]
        simp [this]
      rw [this]
      rfl
    | succ n ih =>
      intro s hs
      rw [splitGo_eq hsep, countOcc_eq hsep]
      match ho : firstOcc s sep with
      | none => rfl
      | some i =>
        simp only [List.length_cons]
        have hfits := firstOcc_fits ho
        have hseplen : 0 < sep.length := List.length_pos.mpr hsep
        rw [ih (s.drop (i + sep.length)) (by simp only [List.length_drop]; omega)]
  exact H s.length s (le_refl _)

/-! ### Lemmas: character classes and the matchers -/

theorem goIsLower_not_digit {c : Char} (h : goIsLower c = true) : goIsDigit c = false := by
  simp only [goIsLower, Bool.and_eq_true, decide_eq_true_eq] at h
  obtain ⟨h1, h2⟩ := h
  have h1n : (97 : Nat) ≤ c.val.toNat := h1
  rw [goIsDigit]
  rw [Bool.eq_false_iff]
  intro hc
  simp only [Bool.and_eq_true, decide_eq_true_eq] at hc
  have h3n : c.val.toNat ≤ (57 : Nat) := hc.2
  omega

theorem goIsDigit_ne_dash {c : Char} (h : goIsDigit c = true) : c ≠ '-' := by
  simp [goIsDigit, Char.le_def] at h
  intro he
  subst he
  simp at h

theorem goIsLower_ne_dash {c : Char} (h : goIsLower c = true) : c ≠ '-' := by
  simp [goIsLower, Char.le_def] at h
  intro he
  subst he
  simp at h

theorem dropWhileHead_not {p : Char → Bool} {l : List Char} {c : Char} {t : List Char}
    (h : l.dropWhile p = c :: t) : p c = false := by
  have hl : 0 < (l.dropWhile p).length := by rw [h]; simp
  have h2 := List.dropWhile_get_zero_not (p := p) l hl
  have h3 : (l.dropWhile p).get ⟨0, hl⟩ = c := by
    simp [List.get_eq_getElem, h]
  rw [h3] at h2
  exact Bool.eq_false_iff.mpr h2

theorem anMatchAt_sound {s ds ls : List Char} (h : anMatchAt s = some (ds, ls)) :
    ds ≠ [] ∧ ds.all goIsDigit = true ∧ ls ≠ [] ∧ ls.all goIsLower = true ∧
      ∃ r, s = '-' :: (ds ++ (ls ++ r)) := by
  match s with
  | [] => simp [anMatchAt] at h
  | c :: rest =>
    rw [anMatchAt] at h
    by_cases hc : c = '-'
    · simp only [hc, ne_eq, not_true_eq_false, if_false, ite_false, if_neg] at h
      by_cases hds : rest.takeWhile goIsDigit = []
      · simp [hds] at h
      · by_cases hls : (rest.dropWhile goIsDigit).takeWhile goIsLower = []
        · simp [hds, hls] at h
        · simp only [hds, hls, if_false, ite_false, Option.some.injEq, Prod.mk.injEq] at h
          obtain ⟨hd, hl⟩ := h
          subst hd
          subst hl
          refine ⟨hds, List.all_takeWhile, hls, List.all_takeWhile,
            (rest.dropWhile goIsDigit).dropWhile goIsLower, ?_⟩
          have e1 : rest = rest.takeWhile goIsDigit ++ rest.dropWhile goIsDigit :=
            (List.takeWhile_append_dropWhile _ _).symm
          have e2 : rest.dropWhile goIsDigit =
              (rest.dropWhile goIsDigit).takeWhile goIsLower ++
                (rest.dropWhile goIsDigit).dropWhile goIsLower :=
            (List.takeWhile_append_dropWhile _ _).symm
          rw [hc]
          conv_lhs => rw [e1]
          rw [← e2]
    · simp [hc] at h

theorem findAllANF_succ (fuel : Nat) (s : List Char) (pos : Nat) :
    findAllANF (fuel + 1) s pos =
      match anMatchAt s with
      | some (ds, ls) =>
        ⟨pos, ds, ls⟩ :: findAllANF fuel (s.drop (1 + ds.length + ls.length))
          (pos + (1 + ds.length + ls.length))
      | none =>
        match s with
        | [] => []
        | _ :: t => findAllANF fuel t (pos + 1) := rfl

theorem findAllANF_inv : ∀ fuel s pos, ∀ m ∈ findAllANF fuel s pos,
    m.ds ≠ [] ∧ m.ds.all goIsDigit = true ∧ m.ls ≠ [] ∧ m.ls.all goIsLower = true := by
  intro fuel
  induction fuel with
  | zero => intro s pos m hm; simp [findAllANF] at hm
  | succ fuel ih =>
    intro s pos m hm
    rw [findAllANF_succ] at hm
    match ha : anMatchAt s with
    | some (ds, ls) =>
      rw [ha] at hm
      simp only [List.mem_cons] at hm
      rcases hm with hm | hm
      · subst hm
        obtain ⟨h1, h2, h3, h4, _⟩ := anMatchAt_sound ha
        exact ⟨h1, h2, h3, h4⟩
      · exact ih _ _ m hm
    | none =>
      rw [ha] at hm
      match s with
      | [] => simp at hm
      | c :: t => exact ih _ _ m hm

theorem findAllAN_inv {s : List Char} {m : ANMatch} (hm : m ∈ findAllAN s) :
    m.ds ≠ [] ∧ m.ds.all goIsDigit = true ∧ m.ls ≠ [] ∧ m.ls.all goIsLower = true :=
  findAllANF_inv _ _ _ m hm

theorem nlMatchAt_sound {s ds ls : List Char} (h : nlMatchAt s = some (ds, ls)) :
    ds ≠ [] ∧ ds.all goIsDigit = true ∧ ls ≠ [] ∧ ls.all goIsLower = true ∧
      ∃ r, s = ds ++ (ls ++ r) := by
  rw [nlMatchAt] at h
  by_cases hds : s.takeWhile goIsDigit = []
  · simp [hds] at h
  · by_cases hls : (s.dropWhile goIsDigit).takeWhile goIsLower = []
    · simp [hds, hls] at h
    · simp only [hds, hls, if_false, ite_false, Option.some.injEq, Prod.mk.injEq] at h
      obtain ⟨hd, hl⟩ := h
      subst hd
      subst hl
      refine ⟨hds, List.all_takeWhile, hls, List.all_takeWhile,
        (s.dropWhile goIsDigit).dropWhile goIsLower, ?_⟩
      have e1 : s = s.takeWhile goIsDigit ++ s.dropWhile goIsDigit :=
        (List.takeWhile_append_dropWhile _ _).symm
      have e2 : s.dropWhile goIsDigit =
          (s.dropWhile goIsDigit).takeWhile goIsLower ++
            (s.dropWhile goIsDigit).dropWhile goIsLower :=
        (List.takeWhile_append_dropWhile _ _).symm
      conv_lhs => rw [e1]
      rw [← e2]

theorem nlMatchAt_isSome_of_pref {s ds ls : List Char} (hds : ds ≠ []) (hls : ls ≠ [])
    (hd : ds.all goIsDigit = true) (hl : ls.all goIsLower = true)
    (hp : ds ++ ls <+: s) : nlMatchAt s ≠ none := by
  obtain ⟨r, hr⟩ := hp
  subst hr
  rw [nlMatchAt]
  match ls, hls with
  | l0 :: ls', _ =>
    have hl0 : goIsLower l0 = true := by
      rw [List.all_eq_true] at hl
      exact hl l0 (by simp)
    have hnd : ¬ goIsDigit l0 = true := by
      rw [goIsLower_not_digit hl0]
      simp
    have hdall : ∀ a ∈ ds, goIsDigit a = true := by
      rw [List.all_eq_true] at hd
      exact hd
    have htw : ((ds ++ (l0 :: ls')) ++ r).takeWhile goIsDigit = ds := by
      rw [List.append_assoc, List.takeWhile_append_of_pos hdall, List.cons_append,
        List.takeWhile_cons_of_neg hnd, List.append_nil]
    have hdw : ((ds ++ (l0 :: ls')) ++ r).dropWhile goIsDigit = l0 :: (ls' ++ r) := by
      rw [List.append_assoc, List.dropWhile_append_of_pos hdall, List.cons_append,
        List.dropWhile_cons_of_neg hnd]
    rw [htw, hdw]
    simp only [hds, if_false, ite_false]
    rw [List.takeWhile_cons_of_pos hl0]
    simp

theorem findFirstNL_sound {s : List Char} {m : NLMatch} (h : findFirstNL s = some m) :
    m.ds ≠ [] ∧ m.ds.all goIsDigit = true ∧ m.ls ≠ [] ∧ m.ls.all goIsLower = true ∧
      m.m0 <+: s.drop m.pos ∧ firstOcc s m.m0 = some m.pos := by
  induction s generalizing m with
  | nil => simp [findFirstNL] at h
  | cons c t ih =>
    rw [findFirstNL] at h
    match ha : nlMatchAt (c :: t) with
    | some (ds, ls) =>
      rw [ha] at h
      simp only [Option.some.injEq] at h
      subst h
      obtain ⟨h1, h2, h3, h4, r, hr⟩ := nlMatchAt_sound ha
      have hpre : (NLMatch.m0 ⟨0, ds, ls⟩) <+: (c :: t) := by
        rw [NLMatch.m0]
        exact ⟨r, by rw [hr]; simp⟩
      refine ⟨h1, h2, h3, h4, by simpa using hpre, ?_⟩
      unfold firstOcc
      have hb : (NLMatch.m0 ⟨0, ds, ls⟩).isPrefixOf (c :: t) = true := by
        rw [isPrefixOf_iff]
        exact hpre
      simp [hb]
    | none =>
      rw [ha] at h
      match hf : findFirstNL t with
      | none => rw [hf] at h; simp at h
      | some mt =>
        rw [hf] at h
        simp only [Option.map_some', Option.some.injEq] at h
        subst h
        obtain ⟨h1, h2, h3, h4, h5, h6⟩ := ih hf
        refine ⟨h1, h2, h3, h4, by simpa using h5, ?_⟩
        unfold firstOcc
        have hnp : ¬ (NLMatch.m0 ⟨mt.pos + 1, mt.ds, mt.ls⟩).isPrefixOf (c :: t) = true := by
          rw [isPrefixOf_iff]
          intro hcon
          exact nlMatchAt_isSome_of_pref h1 h3 h2 h4 hcon ha
        simp only [Bool.not_eq_true] at hnp
        rw [hnp]
        simp only [NLMatch.m0] at h6
        simp [NLMatch.m0, h6]

/-! ### Lemmas: the mergeParts loop and the path splitter -/

theorem mergeLoopRev_ok {ms : List MPMatch} (base : List Char)
    (hp : ∀ m ∈ ms, parseIntGo32 m.ds = .ok (digitsToNat m.ds)) :
    mergeLoopRev ms base = .ok
      (base.take (base.length - (ms.map (fun m => m.m0.length)).sum),
       (ms.map (fun m => digitsToNat m.ds)).sum,
       (ms.map MPMatch.g2).reverse) := by
  induction ms generalizing base with
  | nil => simp [mergeLoopRev]
  | cons m rest ih =>
    rw [mergeLoopRev]
    rw [hp m (by simp)]
    simp only [RunResult.bind]
    rw [ih (base.take (base.length - m.m0.length)) (fun x hx => hp x (by simp [hx]))]
    simp only [RunResult.map, RunResult.ok.injEq, Prod.mk.injEq]
    refine ⟨?_, ?_, ?_⟩
    · rw [List.take_take, List.length_take]
      congr 1
      simp only [List.map_cons, List.sum_cons]
      omega
    · simp only [List.map_cons, List.sum_cons, Int.toNat_ofNat]
      omega
    · simp [List.reverse_cons]

theorem parseIntGo32_ne_panicked (ds : List Char) : parseIntGo32 ds ≠ .panicked := by
  rw [parseIntGo32]
  split
  · simp
  · split
    · simp
    · simp

theorem mergeLoopRev_ne_panicked : ∀ (ms : List MPMatch) (base : List Char),
    mergeLoopRev ms base ≠ .panicked := by
  intro ms
  induction ms with
  | nil => intro base; simp [mergeLoopRev]
  | cons m rest ih =>
    intro base
    rw [mergeLoopRev]
    match hp : parseIntGo32 m.ds with
    | .ok v =>
      simp only [RunResult.bind]
      match hr : mergeLoopRev rest (base.take (base.length - m.m0.length)) with
      | .ok r => simp [RunResult.map]
      | .error => simp [RunResult.map]
      | .panicked => exact absurd hr (ih _)
    | .error => simp [RunResult.bind]
    | .panicked => exact absurd hp (parseIntGo32_ne_panicked _)

theorem addLoop_ne_panicked (a : Int) : ∀ (ms : List ANMatch) (i : Nat) (mC : Int)
    (base : List Char), addLoop a ms i mC base ≠ .panicked := by
  intro ms
  induction ms with
  | nil => intro i mC base; simp [addLoop]
  | cons m rest ih =>
    intro i mC base
    rw [addLoop]
    split
    · simp
    · match hp : parseIntGo32 m.ds with
      | .ok v => simp only [RunResult.bind]; exact ih _ _ _
      | .error => simp [RunResult.bind]
      | .panicked => exact absurd hp (parseIntGo32_ne_panicked _)

theorem goFilepathBase_eq_self {s : List Char} (h1 : s ≠ []) (h2 : '/' ∉ s) :
    goFilepathBase s = s := by
  rw [goFilepathBase]
  have hdw : s.reverse.dropWhile isSlash = s.reverse := by
    match hsr : s.reverse with
    | [] => rfl
    | a :: t =>
      have ha : a ∈ s := by
        rw [← List.mem_reverse, hsr]
        simp
      have hna : ¬ isSlash a = true := by
        simp only [isSlash, decide_eq_true_eq]
        exact fun he => h2 (he ▸ ha)
      rw [List.dropWhile_cons_of_neg hna]
  have htw : s.reverse.takeWhile notSlash = s.reverse := by
    apply List.takeWhile_eq_self_iff.mpr
    intro a ha
    have : a ∈ s := List.mem_reverse.mp ha
    simp only [notSlash, ne_eq, decide_eq_true_eq]
    exact fun he => h2 (he ▸ this)
  have hrev : s.reverse ≠ [] := by simpa using h1
  simp only [h1, if_false, ite_false, hdw, htw, hrev, List.reverse_reverse]

theorem goExt_decomp {s : List Char} (h2 : '/' ∉ s) :
    s.take (s.length - (goExt s).length) ++ goExt s = s ∧ (goExt s).length ≤ s.length := by
  rw [goExt]
  have htail : s.reverse.takeWhile notSlash = s.reverse := by
    apply List.takeWhile_eq_self_iff.mpr
    intro a ha
    have : a ∈ s := List.mem_reverse.mp ha
    simp only [notSlash, ne_eq, decide_eq_true_eq]
    exact fun he => h2 (he ▸ this)
  simp only [htail]
  by_cases hlen : (s.reverse.takeWhile notDot).length = s.reverse.length
  · simp [hlen]
  · simp only [hlen, if_false, ite_false]
    set pre := s.reverse.takeWhile notDot with hpre
    have hsplit : s.reverse = pre ++ s.reverse.dropWhile notDot :=
      (List.takeWhile_append_dropWhile _ _).symm
    match hrest : s.reverse.dropWhile notDot with
    | [] =>
      exfalso
      rw [hrest, List.append_nil] at hsplit
      exact hlen (by rw [← hsplit])
    | d0 :: rest' =>
      have hd0 : d0 = '.' := by
        have := dropWhileHead_not hrest
        simpa [notDot] using this
      subst hd0
      rw [hrest] at hsplit
      have hs : s = rest'.reverse ++ ('.' :: pre.reverse) := by
        conv_lhs => rw [← List.reverse_reverse s, hsplit]
        simp
      have hlens : s.length = rest'.length + (pre.length + 1) := by
        rw [hs]
        simp
      constructor
      · have htk : s.length - ('.' :: pre.reverse).length = rest'.reverse.length := by
          simp only [List.length_cons, List.length_reverse]
          omega
        rw [htk]
        conv_lhs => rw [hs]
        rw [List.take_left' rfl]
        exact hs.symm
      · simp only [List.length_cons, List.length_reverse]
        omega

theorem goBaseExt_append {s : List Char} (h1 : s ≠ []) (h2 : '/' ∉ s) :
    (goBaseExt s).1 ++ (goBaseExt s).2 = s := by
  rw [goBaseExt]
  simp only [goFilepathBase_eq_self h1 h2]
  by_cases he : goExt s = []
  · simp [he]
  · simp only [he, ne_eq, not_false_eq_true, if_true, ite_true]
    exact (goExt_decomp h2).1

theorem goBaseExt_length {s : List Char} (h1 : s ≠ []) (h2 : '/' ∉ s) :
    (goBaseExt s).1.length + (goBaseExt s).2.length = s.length := by
  have := goBaseExt_append h1 h2
  have hl := congrArg List.length this
  simpa using hl

/-! ### Claim C5 -/

/-- C5: mergeParts with an empty custom regex fragment and empty deleteText
sums the numeric prefixes of all matched descriptions and reassembles the
remaining base, the total, and the labels joined with dashes; concretely,
`mergeParts("foo-1bar-2baz.txt", "", "")` yields `"foo-3bar-baz.txt"`
(shown for both embedded digit-bound variants, plus the three-description
test fixture `foo-1bar-2baz-3quix.txt → foo-6bar-baz-quix.txt`
demonstrating the summation). -/
theorem c5_mergeParts_example :
    mergePartsCore false ("foo-1bar-2baz.txt".toList) [] =
      .ok ("foo-3bar-baz.txt".toList) ∧
    mergePartsCore true ("foo-1bar-2baz.txt".toList) [] =
      .ok ("foo-3bar-baz.txt".toList) ∧
    mergePartsCore true ("foo-1bar-2baz-3quix.txt".toList) [] =
      .ok ("foo-6bar-baz-quix.txt".toList) := by
  refine ⟨?_, ?_, ?_⟩ <;> decide

/-! ### Counterexamples for the corrected claims -/

/-- C1 counterexample: on `foo.txt` the composite pattern finds no match,
yet mergeParts does not leave the name unchanged — it returns success with
the DIFFERENT name `foo-0.txt` (the `-%d` format string always inserts the
sum, here 0), and a rename is performed. -/
theorem c1_counterexample :
    findAllMP false ("foo".toList) = [] ∧
    findAllMP true ("foo".toList) = [] ∧
    mergePartsCore false ("foo.txt".toList) [] = .ok ("foo-0.txt".toList) ∧
    mergePartsCore true ("foo.txt".toList) [] = .ok ("foo-0.txt".toList) ∧
    ("foo-0.txt".toList) ≠ ("foo.txt".toList) ∧
    (runOp [] (Op.mergePartsOp true []) ("foo.txt".toList) false false).renames =
      [(("foo.txt".toList), ("foo-0.txt".toList))] := by
  refine ⟨?_, ?_, ?_, ?_, ?_, ?_⟩ <;> decide

/-- C2 counterexample: `prefix` with a skip count larger than the number of
segments panics (the `concat` guard), and `addNumber` with `skipFinds`
larger than the number of matches panics (the slice `matches[skipFinds:]`);
neither returns a result value. -/
theorem c2_counterexample :
    prefixCore ("a.txt".toList) ("x".toList) 2 = .panicked ∧
    addNumberCore ("foo-1bar.txt".toList) 1 2 1 = .panicked := by
  refine ⟨?_, ?_⟩ <;> decide

/-- C3 counterexample: in `foo-1a-1a.txt` the two matches of the default
pattern have identical text `-1a`; `addNumber` with `maxCount=1,
skipFinds=1` selects the second match but textually substitutes the FIRST
occurrence, producing `foo-2a-1a.txt` instead of the claimed
`foo-1a-2a.txt`. -/
theorem c3_counterexample :
    findAllAN ("foo-1a-1a".toList) =
      [⟨3, ['1'], ['a']⟩, ⟨6, ['1'], ['a']⟩] ∧
    addNumberCore ("foo-1a-1a.txt".toList) 1 1 1 = .ok ("foo-2a-1a.txt".toList) ∧
    ("foo-2a-1a.txt".toList) ≠ ("foo-1a-2a.txt".toList) := by
  refine ⟨?_, ?_, ?_⟩ <;> decide

/-- C4 counterexample: on `foo-1bar-X.txt` the single match `-1bar` is not a
suffix of the base name, and the scan chops the last `len(match)`
characters — removing the unmatched text `bar-X` instead of the matched
text, yielding `foo-1-1bar.txt` where removing only the matched text (the
spec-modelled reference) yields `foo-X-1bar.txt`.  Additionally the two
snapshots build different patterns: `\d+` (main) matches `-123bar` while
`\d{1,2}` (later snapshot, the claimed pattern) does not. -/
theorem c4_counterexample :
    mergePartsCore true ("foo-1bar-X.txt".toList) [] = .ok ("foo-1-1bar.txt".toList) ∧
    mergeSpecName true ("foo-1bar-X.txt".toList) = .ok ("foo-X-1bar.txt".toList) ∧
    ("foo-1-1bar.txt".toList) ≠ ("foo-X-1bar.txt".toList) ∧
    mergePartsCore false ("foo-123bar.txt".toList) [] = .ok ("foo-123bar.txt".toList) ∧
    mergePartsCore true ("foo-123bar.txt".toList) [] = .ok ("foo-123bar-0.txt".toList) := by
  refine ⟨?_, ?_, ?_, ?_, ?_⟩ <;> decide

/-- C6 counterexample: `foo-foo` contains `foo` twice; with `skip = 2` the
claimed condition `skip > occurrences - 1` demands an error, but the code
only errors for `skip > len(parts) - 1 = occurrences` and instead succeeds,
appending the replacement after the last restored occurrence. -/
theorem c6_counterexample :
    countOcc ("foo".toList) ("foo-foo".toList) = 2 ∧
    ((2 : Int) > (2 : Int) - 1) ∧
    replaceCore ("foo-foo.txt".toList) ("foo".toList) ("bar".toList) 2 =
      .ok ("foo-foobar.txt".toList) := by
  refine ⟨?_, ?_, ?_⟩ <;> decide

/-- C7 counterexample: on `1a-2b.txt` the main variant's `insertBefore`
uses `FindString`, the FIRST match `1a`, producing `X-1a-2b.txt`, not the
`1a-X-2b.txt` demanded by the last-match reading (the spec-modelled
reference); the later snapshot on `1a-1a.txt` picks the last match but
splices at the first occurrence of its text, also not immediately before
the last match. -/
theorem c7_counterexample :
    insertBeforeCore ("1a-2b.txt".toList) ("X".toList) = .ok ("X-1a-2b.txt".toList) ∧
    insertBeforeLastSpec ("1a-2b.txt".toList) ("X".toList) = ("1a-X-2b.txt".toList) ∧
    ("X-1a-2b.txt".toList) ≠ ("1a-X-2b.txt".toList) ∧
    insertBeforeV2Core ("1a-1a.txt".toList) ("X".toList) = .ok ("X-1a-1a.txt".toList) := by
  refine ⟨?_, ?_, ?_, ?_⟩ <;> decide

/-! ### Claim C8 -/

/-- C8: for every operation and every input, a dry run performs no rename —
the file-system effect list is empty — while, whenever the operation
computes a target name, that name is still reported. -/
theorem c8_dry_run_no_rename (fs : List (List Char)) (op : Op) (name : List Char)
    (force : Bool) :
    (runOp fs op name true force).renames = [] ∧
    (∀ n, opName op name = .ok n → (runOp fs op name true force).reported = [n]) := by
  constructor
  · rw [runOp]
    match h : opName op name with
    | .ok n => simp
    | .error => simp
    | .panicked => simp
  · intro n hn
    rw [runOp, hn]
    rfl

/-- C8 witness: a dry-run `prefix` on a concrete file reports the computed
name and performs no rename. -/
theorem c8_witness :
    (runOp [] (Op.prefixOp ("new".toList) 0) ("a-b.txt".toList) true false).renames = [] ∧
    (runOp [] (Op.prefixOp ("new".toList) 0) ("a-b.txt".toList) true false).reported =
      [("new-a-b.txt".toList)] := by
  have h := c8_dry_run_no_rename [] (Op.prefixOp ("new".toList) 0) ("a-b.txt".toList) false
  exact ⟨h.1, h.2 ("new-a-b.txt".toList) (by decide)⟩

/-! ### Claim C9 -/

/-- C9: for every file name (non-empty, slash-free) whose extension contains
no dash, splitting into base, extension and dash-delimited segments and
re-joining reconstructs the original name bit for bit. -/
theorem c9_split_join_roundtrip (name : List Char) (h1 : name ≠ []) (h2 : '/' ∉ name)
    (h3 : '-' ∉ goExt name) :
    joinGo ['-'] (splitGo ['-'] (goBaseExt name).1) ++ (goBaseExt name).2 = name := by
  rw [joinGo_splitGo (by simp)]
  exact goBaseExt_append h1 h2

/-- C9 witness at a concrete two-segment name with extension. -/
theorem c9_witness :
    joinGo ['-'] (splitGo ['-'] (goBaseExt ("foo-1bar.txt".toList)).1) ++
      (goBaseExt ("foo-1bar.txt".toList)).2 = ("foo-1bar.txt".toList) :=
  c9_split_join_roundtrip ("foo-1bar.txt".toList) (by decide) (by decide) (by decide)

/-! ### Claim C10 -/

/-- C10: deleteParts never returns an error; a 1-based index whose computed
0-based position falls outside the segment range is silently ignored, and
the remaining segments keep their order (the surviving segment list is a
sublist of the original). -/
theorem c10_deleteParts_total (name : List Char) (ps : List Int) (fb : Bool) :
    (∃ r, deletePartsCore name ps fb = .ok r) ∧
    (∀ p : Int,
      ((if fb then ((splitGo ['-'] (goBaseExt name).1).length : Int) - p else p - 1) < 0 ∨
        ((splitGo ['-'] (goBaseExt name).1).length : Int) ≤
          (if fb then ((splitGo ['-'] (goBaseExt name).1).length : Int) - p else p - 1)) →
      deletePartsSegs (splitGo ['-'] (goBaseExt name).1) (p :: ps) fb =
        deletePartsSegs (splitGo ['-'] (goBaseExt name).1) ps fb) ∧
    List.Sublist (deletePartsSegs (splitGo ['-'] (goBaseExt name).1) ps fb)
      (splitGo ['-'] (goBaseExt name).1) := by
  refine ⟨⟨_, rfl⟩, ?_, ?_⟩
  · intro p hp
    rw [deletePartsSegs, deletePartsSegs]
    congr 1
    apply List.filter_congr
    intro pr hpr
    have hlt : pr.1 < (splitGo ['-'] (goBaseExt name).1).length :=
      List.fst_lt_of_mem_enum hpr
    have hne : ¬ ((if fb then ((splitGo ['-'] (goBaseExt name).1).length : Int) - p
        else p - 1) = (pr.1 : Int)) := by
      rcases hp with hp | hp
      · intro he
        rw [he] at hp
        omega
      · intro he
        rw [he] at hp
        omega
    have hset : goDeleteSet (splitGo ['-'] (goBaseExt name).1).length (p :: ps) fb pr.1 =
        goDeleteSet (splitGo ['-'] (goBaseExt name).1).length ps fb pr.1 := by
      rw [goDeleteSet, goDeleteSet, List.any_cons]
      rw [decide_eq_false hne]
      simp
    rw [hset]
  · rw [deletePartsSegs]
    conv_rhs => rw [← List.enum_map_snd (splitGo ['-'] (goBaseExt name).1)]
    exact List.Sublist.map _ (List.filter_sublist _)

/-- C10 witness: deleting the out-of-range 1-based index 99 together with
index 2 from `foo-bar-baz.txt` behaves exactly like deleting index 2
alone, succeeds, and keeps the remaining segments in order. -/
theorem c10_witness :
    (∃ r, deletePartsCore ("foo-bar-baz.txt".toList) [99, 2] false = .ok r) ∧
    deletePartsSegs (splitGo ['-'] (goBaseExt ("foo-bar-baz.txt".toList)).1) [99, 2] false =
      deletePartsSegs (splitGo ['-'] (goBaseExt ("foo-bar-baz.txt".toList)).1) [2] false ∧
    List.Sublist
      (deletePartsSegs (splitGo ['-'] (goBaseExt ("foo-bar-baz.txt".toList)).1) [99, 2] false)
      (splitGo ['-'] (goBaseExt ("foo-bar-baz.txt".toList)).1) := by
  have h := c10_deleteParts_total ("foo-bar-baz.txt".toList) [2] false
  have h2 := c10_deleteParts_total ("foo-bar-baz.txt".toList) [99, 2] false
  exact ⟨h2.1, h.2.1 99 (by decide), h2.2.2⟩

/-! ### Claim C1 (amended) -/

/-- C1 amended: when mergeParts finds no matches at all, it still returns
success, but the computed name is the base with `-0` and the extension
appended — a name that always differs from the original, so a rename IS
performed (not a no-op).  The original claim's no-op reading is refuted by
`c1_counterexample`. -/
theorem c1_merge_no_match_appends_zero (l2 : Bool) (name : List Char)
    (h1 : name ≠ []) (h2 : '/' ∉ name)
    (h0 : findAllMP l2 (goBaseExt name).1 = []) :
    mergePartsCore l2 name [] =
      .ok ((goBaseExt name).1 ++ '-' :: '0' :: (goBaseExt name).2) ∧
    (goBaseExt name).1 ++ '-' :: '0' :: (goBaseExt name).2 ≠ name := by
  constructor
  · simp only [mergePartsCore, h0, List.reverse_nil]
    simp only [mergeLoopRev, RunResult.map]
    have hz : natToChars 0 = ['0'] := rfl
    have hj : joinGo ['-'] ([] : List (List Char)) = [] := rfl
    simp [hz, hj]
  · intro he
    have hl := congrArg List.length he
    have hbe := goBaseExt_length h1 h2
    simp only [List.length_append, List.length_cons] at hl
    omega

/-- C1 witness at the concrete no-match input `bar.mp4`. -/
theorem c1_witness :
    mergePartsCore true ("bar.mp4".toList) [] =
      .ok ((goBaseExt ("bar.mp4".toList)).1 ++ '-' :: '0' ::
        (goBaseExt ("bar.mp4".toList)).2) ∧
    (goBaseExt ("bar.mp4".toList)).1 ++ '-' :: '0' ::
      (goBaseExt ("bar.mp4".toList)).2 ≠ ("bar.mp4".toList) :=
  c1_merge_no_match_appends_zero true ("bar.mp4".toList) (by decide) (by decide) (by decide)

/-! ### Claim C2 (amended) -/

/-- C2 amended: the rename operations return result values except for the
out-of-range skip parameters, which panic exactly as characterised here:
`concat` (hence `prefix`) panics iff the skip count is negative or exceeds
the number of segments, and `addNumber` panics iff matches exist and
`skipFinds` is negative or exceeds the match count; with non-negative skip
parameters `suffix` and `replace` never panic, and `mergeParts`,
`deleteParts` and `insertBefore` never panic at all.  The original claim
("no operation panics") is refuted by `c2_counterexample`. -/
theorem c2_operations_return_or_panic :
    (∀ (parts : List (List Char)) (skip : Int) (np e sep : List Char),
      (concatGo parts skip np e sep = .panicked ↔
        (skip < 0 ∨ (parts.length : Int) < skip))) ∧
    (∀ (name np : List Char) (skip : Int),
      (prefixCore name np skip = .panicked ↔
        (skip < 0 ∨ ((splitGo ['-'] (goBaseExt name).1).length : Int) < skip))) ∧
    (∀ (name : List Char) (a skipF maxC : Int),
      (addNumberCore name a skipF maxC = .panicked ↔
        (findAllAN (goBaseExt name).1 ≠ [] ∧
          (skipF < 0 ∨ ((findAllAN (goBaseExt name).1).length : Int) < skipF)))) ∧
    (∀ (name np : List Char) (skip : Int), 0 ≤ skip →
      suffixCore name np skip ≠ .panicked) ∧
    (∀ (name se rw : List Char) (skip : Int), 0 ≤ skip →
      replaceCore name se rw skip ≠ .panicked) ∧
    (∀ (l2 : Bool) (name del : List Char), mergePartsCore l2 name del ≠ .panicked) ∧
    (∀ (name : List Char) (ps : List Int) (fb : Bool),
      deletePartsCore name ps fb ≠ .panicked) ∧
    (∀ (name t : List Char), insertBeforeCore name t ≠ .panicked) := by
  refine ⟨?_, ?_, ?_, ?_, ?_, ?_, ?_, ?_⟩
  · intro parts skip np e sep
    rw [concatGo]
    by_cases hc : skip < 0 ∨ (parts.length : Int) < skip
    · simp [hc]
    · simp [hc]
  · intro name np skip
    simp only [prefixCore]
    rw [concatGo]
    by_cases hc : skip < 0 ∨ ((splitGo ['-'] (goBaseExt name).1).length : Int) < skip
    · simp [hc]
    · simp [hc]
  · intro name a skipF maxC
    simp only [addNumberCore]
    by_cases hms : findAllAN (goBaseExt name).1 = []
    · simp [hms]
    · rw [if_neg hms]
      by_cases hsf : skipF < 0 ∨ ((findAllAN (goBaseExt name).1).length : Int) < skipF
      · rw [if_pos hsf]
        simp [hms, hsf]
      · rw [if_neg hsf]
        match hl : addLoop a ((findAllAN (goBaseExt name).1).drop skipF.toNat) 0 maxC
            (goBaseExt name).1 with
        | .ok r => simp [RunResult.map, hms, hsf]
        | .error => simp [RunResult.map, hms, hsf]
        | .panicked => exact absurd hl (addLoop_ne_panicked _ _ _ _ _)
  · intro name np skip hskip
    simp only [suffixCore]
    by_cases h1 : ((splitGo ['-'] (goBaseExt name).1).length : Int) < skip
    · simp [h1]
    · simp only [h1, if_false, ite_false]
      rw [concatGo]
      have hc : ¬ (((splitGo ['-'] (goBaseExt name).1).length : Int) - skip < 0 ∨
          ((splitGo ['-'] (goBaseExt name).1).length : Int) <
            ((splitGo ['-'] (goBaseExt name).1).length : Int) - skip) := by
        omega
      rw [if_neg hc]
      simp
  · intro name se rw skip hskip
    simp only [replaceCore]
    by_cases h1 : ((splitGo se (goBaseExt name).1).length : Int) - 1 < skip
    · simp [h1]
    · simp only [h1, if_false, ite_false]
      by_cases h2 : (splitGo se (goBaseExt name).1).length ≤ 1
      · simp [h2]
      · have h3 : ¬ (skip + 1 < 0) := by omega
        simp [h2, h3]
  · intro l2 name del
    simp only [mergePartsCore]
    match hm : mergeLoopRev (findAllMP l2 (goBaseExt name).1).reverse (goBaseExt name).1 with
    | .ok r => simp [RunResult.map]
    | .error => simp [RunResult.map]
    | .panicked => exact absurd hm (mergeLoopRev_ne_panicked _ _)
  · intro name ps fb
    simp [deletePartsCore]
  · intro name t
    simp only [insertBeforeCore]
    match hf : findFirstNL (goBaseExt name).1 with
    | none => simp
    | some m => simp

/-- C2 witness: the panic characterisation applied at concrete inputs:
`suffix` with skip 1 on a two-segment name returns a result, and the
`concat` panic condition evaluates as characterised for skip 3 over one
segment. -/
theorem c2_witness :
    (concatGo [("a".toList)] 3 ("x".toList) [] ['-'] = .panicked ↔
      ((3 : Int) < 0 ∨ ((([("a".toList)] : List (List Char)).length : Int) < 3))) ∧
    suffixCore ("a-b.txt".toList) ("x".toList) 1 ≠ .panicked :=
  ⟨c2_operations_return_or_panic.1 [("a".toList)] 3 ("x".toList) [] ['-'],
   c2_operations_return_or_panic.2.2.2.1 ("a-b.txt".toList) ("x".toList) 1 (by decide)⟩

/-! ### Claim C6 (amended) -/

/-- C6 amended: replace splits the base name on the literal search string
and returns an error exactly when `skip` exceeds the number of split
boundaries, which is the occurrence count itself: an error iff
`skip > occurrences` (not `occurrences - 1` as claimed; refuted by
`c6_counterexample`). -/
theorem c6_replace_error_iff (name search rw : List Char) (skip : Int)
    (hs : search ≠ []) :
    (replaceCore name search rw skip = .error ↔
      (countOcc search (goBaseExt name).1 : Int) < skip) := by
  have hlen : (splitGo search (goBaseExt name).1).length =
      countOcc search (goBaseExt name).1 + 1 := splitGo_length hs _
  simp only [replaceCore]
  by_cases h1 : ((splitGo search (goBaseExt name).1).length : Int) - 1 < skip
  · simp only [h1, if_true, ite_true]
    rw [hlen] at h1
    push_cast at h1
    simp only [true_iff]
    omega
  · simp only [h1, if_false, ite_false]
    rw [hlen] at h1
    push_cast at h1
    have h1n : ¬ ((countOcc search (goBaseExt name).1 : Int) < skip) := by omega
    simp only [h1n, iff_false]
    by_cases h2 : (splitGo search (goBaseExt name).1).length ≤ 1
    · simp [h2]
    · by_cases h3 : skip + 1 < 0
      · simp [h2, h3]
      · simp [h2, h3]

/-- C6 witness: with three occurrences restored and skip 3, replace on
`foo-foo.txt` with two occurrences of `foo` errors, matching
`skip > occurrences`. -/
theorem c6_witness :
    replaceCore ("foo-foo.txt".toList) ("foo".toList) ("bar".toList) 3 = .error :=
  (c6_replace_error_iff ("foo-foo.txt".toList) ("foo".toList) ("bar".toList) 3
    (by decide)).mpr (by decide)

/-! ### Claim C4 (amended) -/

/-- C4 amended: mergeParts builds the composite pattern
`-(\d{1,2})(<fragment>(-[a-z]+\d*)*)` in the later snapshot (`\d+` in the
main variant) and scans right-to-left, each step chopping `len(match)`
characters off the END of the current base.  This removes exactly the
matched text precisely when the matches tile a suffix of the base name
(as chained descriptions do): under that hypothesis the remaining base is
the prefix before the first match and the whole result is the reassembly
of that prefix, the sum and the group-2 remainders.  For a non-suffix
match unmatched trailing text is removed instead (refuted by
`c4_counterexample`). -/
theorem c4_merge_suffix_trim (l2 : Bool) (name t : List Char)
    (hms : (goBaseExt name).1 =
      t ++ ((findAllMP l2 (goBaseExt name).1).map MPMatch.m0).flatten)
    (hp : ∀ m ∈ findAllMP l2 (goBaseExt name).1,
      parseIntGo32 m.ds = .ok (digitsToNat m.ds)) :
    mergePartsCore l2 name [] = .ok
      (t ++ '-' :: (natToChars (((findAllMP l2 (goBaseExt name).1).map
          (fun m => digitsToNat m.ds)).sum) ++
        joinGo ['-'] ((findAllMP l2 (goBaseExt name).1).map MPMatch.g2) ++
        (goBaseExt name).2)) := by
  have hrevlen : ((findAllMP l2 (goBaseExt name).1).reverse.map
      (fun m => m.m0.length)).sum =
      ((findAllMP l2 (goBaseExt name).1).map (fun m => m.m0.length)).sum := by
    rw [List.map_reverse, List.sum_reverse]
  have hrevsum : ((findAllMP l2 (goBaseExt name).1).reverse.map
      (fun m => digitsToNat m.ds)).sum =
      ((findAllMP l2 (goBaseExt name).1).map (fun m => digitsToNat m.ds)).sum := by
    rw [List.map_reverse, List.sum_reverse]
  have hrevg2 : ((findAllMP l2 (goBaseExt name).1).reverse.map MPMatch.g2).reverse =
      (findAllMP l2 (goBaseExt name).1).map MPMatch.g2 := by
    rw [List.map_reverse, List.reverse_reverse]
  have hlen : (goBaseExt name).1.length =
      t.length + ((findAllMP l2 (goBaseExt name).1).map (fun m => m.m0.length)).sum := by
    have hc := congrArg List.length hms
    rw [List.length_append, List.length_join, List.map_map] at hc
    exact hc
  have htake : (goBaseExt name).1.take ((goBaseExt name).1.length -
      ((findAllMP l2 (goBaseExt name).1).reverse.map (fun m => m.m0.length)).sum) = t := by
    rw [hrevlen, hlen]
    have he : t.length +
        ((findAllMP l2 (goBaseExt name).1).map (fun m => m.m0.length)).sum -
        ((findAllMP l2 (goBaseExt name).1).map (fun m => m.m0.length)).sum =
        t.length := by omega
    rw [he]
    conv_lhs => rw [hms]
    exact List.take_left' rfl
  simp only [mergePartsCore]
  rw [mergeLoopRev_ok (goBaseExt name).1 (fun m hm => hp m (List.mem_reverse.mp hm))]
  simp only [RunResult.map]
  rw [htake, hrevsum, hrevg2]
  simp

/-- C4 witness: the chained-description name `foo-1bar-2baz.txt`, whose two
matches tile the suffix `-1bar-2baz` of the base, merges to exactly the
reassembled prefix, sum and labels. -/
theorem c4_witness :
    mergePartsCore true ("foo-1bar-2baz.txt".toList) [] = .ok
      (("foo".toList) ++ '-' :: (natToChars
          (((findAllMP true (goBaseExt ("foo-1bar-2baz.txt".toList)).1).map
            (fun m => digitsToNat m.ds)).sum) ++
        joinGo ['-'] ((findAllMP true (goBaseExt ("foo-1bar-2baz.txt".toList)).1).map
          MPMatch.g2) ++
        (goBaseExt ("foo-1bar-2baz.txt".toList)).2)) :=
  c4_merge_suffix_trim true ("foo-1bar-2baz.txt".toList) ("foo".toList)
    (by decide) (by decide)

/-! ### Claim C3 (amended) -/

theorem addLoop_stop {a maxC : Int} {i : Nat} {base : List Char}
    (h : 0 < maxC ∧ maxC ≤ (i : Int)) (ms : List ANMatch) :
    addLoop a ms i maxC base = .ok base := by
  match ms with
  | [] => rw [addLoop]
  | m :: rest =>
    rw [addLoop]
    rw [if_pos h]

theorem intToChars_ofNat (n : Nat) : intToChars (n : Int) = natToChars n := by
  rw [intToChars]
  have : ¬ ((n : Int) < 0) := by omega
  rw [if_neg this]
  simp

/-- C3 amended: with `maxCount=1, skipFinds=k` and `k` a valid match index,
`addNumber` substitutes into the FIRST occurrence of the `(k+1)`-th match's
text.  Provided that first occurrence is the match itself (the match text
does not occur earlier in the base name) and the captured number is in
canonical decimal form, exactly the `(k+1)`-th match changes — its capture
group becomes `number + numberToAdd` — and every other character of the
base name is untouched.  Without the first-occurrence proviso the claim
fails (`c3_counterexample`). -/
theorem c3_addNumber_windowing (name : List Char) (add : Int) (k : Nat) (m : ANMatch)
    (hk : (findAllAN (goBaseExt name).1)[k]? = some m)
    (hocc : firstOcc (goBaseExt name).1 m.m0 = some m.pos)
    (hcanon : m.ds = natToChars (digitsToNat m.ds))
    (hrange : digitsToNat m.ds ≤ 2 ^ 31 - 1) :
    addNumberCore name add (k : Int) 1 = .ok
      ((goBaseExt name).1.take m.pos ++
        ('-' :: (intToChars ((digitsToNat m.ds : Int) + add) ++ m.ls)) ++
        (goBaseExt name).1.drop (m.pos + m.m0.length) ++ (goBaseExt name).2) := by
  have hmem : m ∈ findAllAN (goBaseExt name).1 := List.getElem?_mem hk
  obtain ⟨hds, hdig, hls, hlow⟩ := findAllAN_inv hmem
  rw [List.getElem?_eq_some] at hk
  obtain ⟨hklen, hget⟩ := hk
  have hne : findAllAN (goBaseExt name).1 ≠ [] := by
    intro he
    rw [he] at hklen
    simp at hklen
  simp only [addNumberCore]
  rw [if_neg hne]
  have hsf : ¬ ((k : Int) < 0 ∨ ((findAllAN (goBaseExt name).1).length : Int) < (k : Int)) := by
    rintro (h | h)
    · omega
    · have hlt : (findAllAN (goBaseExt name).1).length < k := by exact_mod_cast h
      omega
  rw [if_neg hsf]
  have htn : ((k : Int)).toNat = k := rfl
  rw [htn]
  have hdrop : (findAllAN (goBaseExt name).1).drop k =
      m :: (findAllAN (goBaseExt name).1).drop (k + 1) := by
    rw [List.drop_eq_getElem_cons hklen, hget]
  rw [hdrop]
  rw [addLoop]
  have hstop0 : ¬ ((0 : Int) < 1 ∧ (1 : Int) ≤ ((0 : Nat) : Int)) := by decide
  rw [if_neg hstop0]
  have hparse : parseIntGo32 m.ds = .ok (digitsToNat m.ds) := by
    rw [parseIntGo32]
    have hc1 : ¬ (m.ds = [] ∨ ¬ m.ds.all goIsDigit = true) := by
      simp [hds, hdig]
    rw [if_neg hc1, if_pos hrange]
  rw [hparse]
  simp only [RunResult.bind]
  have hn1 : intToChars ((digitsToNat m.ds : Int)) = m.ds := by
    rw [intToChars_ofNat, ← hcanon]
  rw [hn1]
  have hocc1 : firstOcc m.m0 m.ds = some 1 := by
    apply firstOcc_eq_some_of
    · have : m.m0.drop 1 = m.ds ++ m.ls := rfl
      rw [this]
      exact ⟨m.ls, rfl⟩
    · intro j hj
      interval_cases j
      simp only [List.drop_zero]
      match hd : m.ds, hds with
      | d :: ds', _ =>
        intro hcon
        obtain ⟨r, hr⟩ := hcon
        rw [ANMatch.m0] at hr
        have hdd : goIsDigit d = true := by
          rw [List.all_eq_true] at hdig
          exact hdig d (by rw [hd]; simp)
        have hdm : d = '-' := by
          have h8 := congrArg (fun l => l.head?) hr
          simpa using h8
        exact goIsDigit_ne_dash hdd hdm
  have hrw : replaceFirst m.m0 m.ds (intToChars ((digitsToNat m.ds : Int) + add)) =
      '-' :: (intToChars ((digitsToNat m.ds : Int) + add) ++ m.ls) := by
    rw [replaceFirst_of_firstOcc hocc1]
    have ht1 : m.m0.take 1 = ['-'] := rfl
    have hd1 : m.m0.drop (1 + m.ds.length) = m.ls := by
      rw [ANMatch.m0]
      have : ('-' :: (m.ds ++ m.ls)).drop (1 + m.ds.length) = (m.ds ++ m.ls).drop m.ds.length := by
        rw [Nat.add_comm]
        rfl
      rw [this, List.drop_left]
    rw [ht1, hd1]
    rfl
  rw [hrw]
  rw [replaceFirst_of_firstOcc hocc]
  rw [addLoop_stop (by norm_num) _]
  simp [RunResult.map, List.append_assoc]

/-- C3 witness: on `foo-1a-2b.txt` with `k = 1` the second match `-2b`
occurs nowhere earlier, and adding 1 changes exactly it, yielding
`foo-1a-3b.txt`. -/
theorem c3_witness :
    addNumberCore ("foo-1a-2b.txt".toList) 1 ((1 : Nat) : Int) 1 = .ok
      ((goBaseExt ("foo-1a-2b.txt".toList)).1.take 6 ++
        ('-' :: (intToChars ((digitsToNat ['2'] : Int) + 1) ++ ['b'])) ++
        (goBaseExt ("foo-1a-2b.txt".toList)).1.drop (6 + (ANMatch.m0 ⟨6, ['2'], ['b']⟩).length) ++
        (goBaseExt ("foo-1a-2b.txt".toList)).2) :=
  c3_addNumber_windowing ("foo-1a-2b.txt".toList) 1 1 ⟨6, ['2'], ['b']⟩
    (by decide) (by decide) (by decide) (by decide)

/-! ### Claim C7 (amended) -/

/-- C7 amended: the main variant's `insertBefore` inserts `insertText + "-"`
immediately before the FIRST match of the default pattern (not the last;
refuted by `c7_counterexample` — the later snapshot instead splices at the
first occurrence of the last match's captured text); when there is no
match at all it appends `"-" + insertText` to the base name, so the
operation indeed never fails for lack of a match. -/
theorem c7_insertBefore_first_match (name t : List Char) :
    (findFirstNL (goBaseExt name).1 = none →
      insertBeforeCore name t =
        .ok ((goBaseExt name).1 ++ '-' :: (t ++ (goBaseExt name).2))) ∧
    (∀ m, findFirstNL (goBaseExt name).1 = some m →
      insertBeforeCore name t = .ok
        ((goBaseExt name).1.take m.pos ++ t ++
          '-' :: ((goBaseExt name).1.drop m.pos ++ (goBaseExt name).2))) := by
  constructor
  · intro h
    simp [insertBeforeCore, h]
  · intro m h
    obtain ⟨h1, h2, h3, h4, h5, h6⟩ := findFirstNL_sound h
    simp only [insertBeforeCore, h]
    rw [replaceFirst_of_firstOcc h6]
    have hdecomp : (goBaseExt name).1.drop m.pos =
        m.m0 ++ (goBaseExt name).1.drop (m.pos + m.m0.length) :=
      firstOcc_prefix_decomp h6
    rw [hdecomp]
    simp [List.append_assoc]

/-- C7 witness: the fallback appends on `foo.txt`, and on `foo-1a.txt` the
text is inserted immediately before the first match at index 4. -/
theorem c7_witness :
    insertBeforeCore ("foo.txt".toList) ("X".toList) =
      .ok ((goBaseExt ("foo.txt".toList)).1 ++ '-' ::
        (("X".toList) ++ (goBaseExt ("foo.txt".toList)).2)) ∧
    insertBeforeCore ("foo-1a.txt".toList) ("X".toList) = .ok
      ((goBaseExt ("foo-1a.txt".toList)).1.take 4 ++ ("X".toList) ++
        '-' :: ((goBaseExt ("foo-1a.txt".toList)).1.drop 4 ++
          (goBaseExt ("foo-1a.txt".toList)).2)) :=
  ⟨(c7_insertBefore_first_match ("foo.txt".toList) ("X".toList)).1 (by decide),
   (c7_insertBefore_first_match ("foo-1a.txt".toList) ("X".toList)).2
     ⟨4, ['1'], ['a']⟩ (by decide)⟩

end Ffr
